import Mathlib

/-!
Verification of the dabeaz-compiler repository fragment:
the C support library `src/print.c` (functions `_print_int` and
`_print_float`, thin printf wrappers over standard output) and the
Wabbit sample script `src/SillyWabbit/prog3.wb` (function `isprime`).

Standard output is modelled as a `List Char`; each print helper appends
its formatted line.  The formatting of `printf` is embedded explicitly:
`%i` renders the decimal representation of a signed integer, `%lf`
renders a double in fixed-point notation with six fractional digits,
rounding the exact value to nearest with ties to even.  A finite double
value is represented exactly by an integer mantissa `m` and a power of
two `e` (the value being `m * 2 ^ e`), so its scaled-by-`10 ^ 6` value
is an exact rational with a power-of-two denominator and the rounding
is computed over the integers.
-/

/-- The character for a single decimal digit `d < 10`. -/
def decDigitChar : Nat → Char
  | 0 => '0' | 1 => '1' | 2 => '2' | 3 => '3' | 4 => '4'
  | 5 => '5' | 6 => '6' | 7 => '7' | 8 => '8' | _ => '9'

/-- Big-endian decimal digits of a natural number, with explicit fuel
(`fuel` bounds the number of digits; callers pass `n + 1`, always enough). -/
def natDecAux : Nat → Nat → List Char
  | 0, _ => []
  | fuel + 1, n =>
    if n < 10 then [decDigitChar n]
    else natDecAux fuel (n / 10) ++ [decDigitChar (n % 10)]

/-- Big-endian decimal digit string of a natural number. -/
def natDec (n : Nat) : List Char := natDecAux (n + 1) n

/-- Decimal rendering of a signed integer, as produced by `printf "%i"`:
a leading minus sign for negative values, then the decimal digits. -/
def intDec (i : Int) : List Char :=
  if i < 0 then '-' :: natDec i.natAbs else natDec i.natAbs

/-- The line emitted by `_print_int`: decimal digits then a newline. -/
def intLine (val : Int) : List Char := intDec val ++ ['\n']

/-- Embedding of `_print_int` from `src/print.c`:
`printf("%i\n", val)` appends the decimal line to standard output. -/
def _print_int (val : Int) (stdout : List Char) : List Char :=
  stdout ++ intLine val

/-- Value of a big-endian digit string (follows the spec's words for
"decimal string representation"): fold accumulating base 10. -/
def decValue (s : List Char) : Nat :=
  s.foldl (fun a c => 10 * a + (c.toNat - 48)) 0

/-- A digit-string test written from the spec's words: `t` is the decimal
representation of the natural number `n` iff it is a nonempty string of
decimal digits with no leading zero (except for `"0"` itself) whose
base-10 value is `n`. -/
def isNatDecRep (n : Nat) (t : List Char) : Bool :=
  decide (t ≠ []) && t.all Char.isDigit &&
    (decide (t.head? ≠ some '0') || decide (t = ['0'])) &&
    decide (decValue t = n)

/-- Spec-side test: `s` is the decimal string representation of the
signed integer `i` (a minus sign followed by the digits of `|i|` when
`i` is negative, the digits of `i` otherwise). -/
def isIntDecRep (i : Int) (s : List Char) : Bool :=
  if i < 0 then
    match s with
    | '-' :: t => isNatDecRep i.natAbs t
    | _ => false
  else isNatDecRep i.natAbs s

lemma decValue_append_singleton (s : List Char) (c : Char) :
    decValue (s ++ [c]) = 10 * decValue s + (c.toNat - 48) := by
  simp [decValue, List.foldl_append]

lemma decDigitChar_isDigit (d : Nat) (h : d < 10) :
    (decDigitChar d).isDigit = true := by
  interval_cases d <;> decide

lemma decDigitChar_toNat (d : Nat) (h : d < 10) :
    (decDigitChar d).toNat - 48 = d := by
  interval_cases d <;> decide

lemma decDigitChar_ne_zero (d : Nat) (h0 : 1 ≤ d) (h : d < 10) :
    decDigitChar d ≠ '0' := by
  interval_cases d <;> decide

/-- Main invariant of the digit extraction: with enough fuel the digit
string is nonempty, all digits, has no leading zero when `1 ≤ n`, has at
most `fuel` digits, and evaluates back to `n`. -/
lemma natDecAux_spec (fuel : Nat) :
    ∀ n : Nat, 1 ≤ fuel → n < 10 ^ fuel →
      natDecAux fuel n ≠ [] ∧
      (natDecAux fuel n).all Char.isDigit = true ∧
      (1 ≤ n → (natDecAux fuel n).head? ≠ some '0') ∧
      (natDecAux fuel n).length ≤ fuel ∧
      decValue (natDecAux fuel n) = n := by
  induction fuel with
  | zero => intro n hf _; omega
  | succ fuel ih =>
    intro n _ hn
    by_cases h10 : n < 10
    · refine ⟨by simp [natDecAux, h10], ?_, ?_, ?_, ?_⟩
      · simp [natDecAux, h10, decDigitChar_isDigit n h10]
      · intro h1
        simp only [natDecAux, if_pos h10, List.head?_cons]
        intro hc
        exact decDigitChar_ne_zero n h1 h10 (Option.some.inj hc)
      · simp [natDecAux, h10]
      · simp [natDecAux, h10, decValue, decDigitChar_toNat n h10]
    · have hfuel1 : 1 ≤ fuel := by
        rcases Nat.eq_zero_or_pos fuel with h | h
        · subst h; norm_num at hn; omega
        · exact h
      have hdiv : n / 10 < 10 ^ fuel := by
        have : n < 10 ^ fuel * 10 := by
          calc n < 10 ^ (fuel + 1) := hn
          _ = 10 ^ fuel * 10 := by ring
        omega
      obtain ⟨hne, hdig, hlead, hlen, hval⟩ := ih (n / 10) hfuel1 hdiv
      have hrw : natDecAux (fuel + 1) n
          = natDecAux fuel (n / 10) ++ [decDigitChar (n % 10)] := by
        simp [natDecAux, h10]
      refine ⟨by simp [hrw], ?_, ?_, ?_, ?_⟩
      · simp only [hrw, List.all_append, hdig, Bool.true_and, List.all_cons,
          List.all_nil, Bool.and_true]
        exact decDigitChar_isDigit (n % 10) (Nat.mod_lt n (by omega))
      · intro _
        rw [hrw]
        cases hds : natDecAux fuel (n / 10) with
        | nil => exact absurd hds hne
        | cons a l =>
          simp only [List.cons_append, List.head?_cons]
          have := hlead (by omega)
          rw [hds] at this
          simpa using this
      · rw [hrw]; simp only [List.length_append, List.length_cons,
          List.length_nil]
        omega
      · rw [hrw, decValue_append_singleton, hval,
          decDigitChar_toNat (n % 10) (Nat.mod_lt n (by omega))]
        omega

lemma natDec_spec (n : Nat) :
    natDec n ≠ [] ∧ (natDec n).all Char.isDigit = true ∧
      (1 ≤ n → (natDec n).head? ≠ some '0') ∧ decValue (natDec n) = n := by
  have h := natDecAux_spec (n + 1) n (Nat.le_add_left 1 n)
    (lt_of_lt_of_le (Nat.lt_pow_self (by norm_num) n)
      (Nat.pow_le_pow_right (by norm_num) (Nat.le_succ n)))
  exact ⟨h.1, h.2.1, h.2.2.1, h.2.2.2.2⟩

lemma isNatDecRep_natDec (n : Nat) : isNatDecRep n (natDec n) = true := by
  obtain ⟨hne, hdig, hlead, hval⟩ := natDec_spec n
  by_cases h0 : n = 0
  · subst h0; decide
  · simp [isNatDecRep, hne, hdig, hval, hlead (by omega)]

lemma isIntDecRep_intDec (i : Int) : isIntDecRep i (intDec i) = true := by
  by_cases hneg : i < 0
  · simp [isIntDecRep, intDec, hneg, isNatDecRep_natDec]
  · have h0 : natDec i.natAbs ≠ [] := (natDec_spec i.natAbs).1
    cases hds : natDec i.natAbs with
    | nil => exact absurd hds h0
    | cons a l =>
      have hrep := isNatDecRep_natDec i.natAbs
      rw [hds] at hrep
      by_cases ha : a = '-'
      · subst ha
        simp [isNatDecRep, List.all_cons] at hrep
      · simp only [isIntDecRep, if_neg hneg, intDec, hds]
        exact hrep

/-- Round the exact rational `N / D` (with `D > 0`) to the nearest
integer, ties to even: the rounding `printf` applies when formatting. -/
def roundHalfEven (N D : Int) : Int :=
  let q := N.fdiv D
  let r := N - q * D
  if 2 * r < D then q
  else if D < 2 * r then q + 1
  else if q % 2 = 0 then q else q + 1

/-- The value `|m| * 2 ^ e * 10 ^ 6`, rounded to the nearest integer
(ties to even): the scaled magnitude from which `printf "%lf"` takes
its digits, computed exactly over the integers. -/
def floatScaled6 (m e : Int) : Int :=
  if 0 ≤ e then m.natAbs * 10 ^ 6 * 2 ^ e.toNat
  else roundHalfEven (m.natAbs * 10 ^ 6) (2 ^ (-e).toNat)

/-- Left-pad a digit string with zeros to width `w`. -/
def padZeros (w : Nat) (l : List Char) : List Char :=
  List.replicate (w - l.length) '0' ++ l

/-- The line emitted by `_print_float` for the finite double
`m * 2 ^ e`: fixed-point notation `[-]ddd.dddddd` with six fractional
digits (the default precision of `%lf`), then a newline. -/
def floatLine (m e : Int) : List Char :=
  let s := (floatScaled6 m e).toNat
  (if m < 0 then ['-'] else []) ++ natDec (s / 10 ^ 6) ++
    ['.'] ++ padZeros 6 (natDec (s % 10 ^ 6)) ++ ['\n']

/-- Embedding of `_print_float` from `src/print.c`:
`printf("%lf\n", val)` appends the fixed-point line to standard
output.  The double argument is the value `m * 2 ^ e`. -/
def _print_float (m e : Int) (stdout : List Char) : List Char :=
  stdout ++ floatLine m e

/-- A single invocation of one of the two print helpers. -/
inductive PrintCall where
  | int (val : Int)
  | float (m e : Int)

/-- The line a print call appends to standard output. -/
def PrintCall.line : PrintCall → List Char
  | .int val => intLine val
  | .float m e => floatLine m e

/-- Run one print call against the standard-output stream. -/
def runCall (c : PrintCall) (stdout : List Char) : List Char :=
  match c with
  | .int val => _print_int val stdout
  | .float m e => _print_float m e stdout

/-- Run one print call when the underlying output stream may fail
(`ok = false`): the write is lost, nothing is checked, and the
caller-visible result is the C `void` return, modelled as `Unit`. -/
def runCallChecked (ok : Bool) (c : PrintCall) (stdout : List Char) :
    List Char × Unit :=
  (if ok then runCall c stdout else stdout, ())

/-- Process state around a print call: the standard-output stream plus
every other piece of program state, of arbitrary type `σ`. -/
structure ProcState (σ : Type) where
  stdout : List Char
  rest : σ

/-- Run one print call on the full process state. -/
def runCallOn {σ : Type} (c : PrintCall) (st : ProcState σ) :
    ProcState σ :=
  { st with stdout := runCall c st.stdout }

/-- The while loop of `isprime` from `src/SillyWabbit/prog3.wb`, with
explicit fuel (`none` = the fuel ran out before the loop finished):
while `factor <= n / 2`, set `divisor = n / factor`; if
`factor * divisor == n` return `false`, else increment `factor`. -/
def isprimeFuel : Nat → Int → Int → Option Bool
  | 0, _, _ => none
  | fuel + 1, n, factor =>
    if factor ≤ n / 2 then
      let divisor := n / factor
      if factor * divisor = n then some false
      else isprimeFuel fuel n (factor + 1)
    else some true

/-- Fuel that always suffices for the loop: one more than the number of
remaining iterations `n / 2 + 1 - factor`. -/
def isprimeMeasure (n factor : Int) : Nat := (n / 2 + 1 - factor).toNat

/-- Embedding of `isprime` from `src/SillyWabbit/prog3.wb`: run the
loop from `factor = 2` with sufficient fuel. -/
def isprime (n : Int) : Bool :=
  (isprimeFuel (isprimeMeasure n 2 + 1) n 2).getD true

/-- The sample script prints booleans as `0` / `1` (per the comments in
`prog3.wb`); the compiled program emits them through `_print_int`.
Modelled from the spec: the Wabbit compiler/runtime that lowers
`print` on a `bool` is not part of this fragment. -/
def printBool (b : Bool) (stdout : List Char) : List Char :=
  _print_int (if b then 1 else 0) stdout

/-- Output of the first two print statements of `main` in
`prog3.wb`: `print isprime(15); print isprime(37);`. -/
def mainFirstTwo : List Char :=
  printBool (isprime 37) (printBool (isprime 15) [])

lemma isprimeFuel_sufficient :
    ∀ (fuel : Nat) (n factor : Int), isprimeMeasure n factor < fuel →
      isprimeFuel fuel n factor
        = isprimeFuel (isprimeMeasure n factor + 1) n factor := by
  intro fuel
  induction fuel with
  | zero => intro n factor h; omega
  | succ fuel ih =>
    intro n factor h
    by_cases hc : factor ≤ n / 2
    · by_cases hd : factor * (n / factor) = n
      · simp [isprimeFuel, hc, hd]
      · have hstep : ∀ k : Nat,
            isprimeFuel (k + 1) n factor = isprimeFuel k n (factor + 1) := by
          intro k; simp [isprimeFuel, hc, hd]
        have hm : isprimeMeasure n (factor + 1) < fuel := by
          simp only [isprimeMeasure] at h ⊢
          omega
        have hm1 : isprimeMeasure n factor + 1
            = (isprimeMeasure n (factor + 1) + 1) + 1 := by
          simp only [isprimeMeasure]
          omega
        rw [hstep fuel, hm1, hstep (isprimeMeasure n (factor + 1) + 1),
          ih n (factor + 1) hm]
    · simp [isprimeFuel, hc]

lemma isprimeFuel_isSome :
    ∀ (fuel : Nat) (n factor : Int), isprimeMeasure n factor < fuel →
      (isprimeFuel fuel n factor).isSome = true := by
  intro fuel
  induction fuel with
  | zero => intro n factor h; omega
  | succ fuel ih =>
    intro n factor h
    by_cases hc : factor ≤ n / 2
    · by_cases hd : factor * (n / factor) = n
      · simp [isprimeFuel, hc, hd]
      · simp only [isprimeFuel, if_pos hc, if_neg hd]
        exact ih n (factor + 1) (by simp only [isprimeMeasure] at h ⊢; omega)
    · simp [isprimeFuel, hc]

lemma natDecAux_fuel_add :
    ∀ (fuel : Nat), ∀ n extra : Nat, 1 ≤ fuel → n < 10 ^ fuel →
      natDecAux (fuel + extra) n = natDecAux fuel n := by
  intro fuel
  induction fuel with
  | zero => intro n extra h _; omega
  | succ fuel ih =>
    intro n extra _ hn
    by_cases h10 : n < 10
    · have h1 : fuel + 1 + extra = (fuel + extra) + 1 := by omega
      rw [h1]
      simp [natDecAux, h10]
    · have hfuel1 : 1 ≤ fuel := by
        rcases Nat.eq_zero_or_pos fuel with h | h
        · subst h; norm_num at hn; omega
        · exact h
      have hdiv : n / 10 < 10 ^ fuel := by
        have : n < 10 ^ fuel * 10 := by
          calc n < 10 ^ (fuel + 1) := hn
          _ = 10 ^ fuel * 10 := by ring
        omega
      have h1 : fuel + 1 + extra = (fuel + extra) + 1 := by omega
      rw [h1]
      simp only [natDecAux, if_neg h10]
      rw [ih (n / 10) extra hfuel1 hdiv]

lemma natDec_eq_natDecAux (fuel n : Nat) (h1 : 1 ≤ fuel)
    (h : n < 10 ^ fuel) : natDec n = natDecAux fuel n := by
  unfold natDec
  rcases le_total (n + 1) fuel with hle | hle
  · have heq : fuel = (n + 1) + (fuel - (n + 1)) := by omega
    rw [heq, natDecAux_fuel_add (n + 1) n (fuel - (n + 1))
      (Nat.le_add_left 1 n)
      (lt_of_lt_of_le (Nat.lt_pow_self (by norm_num) n)
        (Nat.pow_le_pow_right (by norm_num) (Nat.le_succ n)))]
  · have heq : n + 1 = fuel + ((n + 1) - fuel) := by omega
    rw [heq, natDecAux_fuel_add fuel n ((n + 1) - fuel) h1 h]

lemma natDec_length_le (fuel n : Nat) (h1 : 1 ≤ fuel) (h : n < 10 ^ fuel) :
    (natDec n).length ≤ fuel := by
  rw [natDec_eq_natDecAux fuel n h1 h]
  exact (natDecAux_spec fuel n h1 h).2.2.2.1

lemma decValue_replicate_zero_append (j : Nat) (t : List Char) :
    decValue (List.replicate j '0' ++ t) = decValue t := by
  induction j with
  | zero => rfl
  | succ j ih =>
    simp only [List.replicate_succ, List.cons_append]
    simpa [decValue] using ih

lemma padZeros_spec (k : Nat) (hk : k < 10 ^ 6) :
    (padZeros 6 (natDec k)).length = 6 ∧
      (padZeros 6 (natDec k)).all Char.isDigit = true ∧
      decValue (padZeros 6 (natDec k)) = k := by
  have hlen : (natDec k).length ≤ 6 := natDec_length_le 6 k (by norm_num) hk
  obtain ⟨-, hdig, -, hval⟩ := natDec_spec k
  refine ⟨?_, ?_, ?_⟩
  · simp only [padZeros, List.length_append, List.length_replicate]
    omega
  · simp only [padZeros, List.all_append, hdig, Bool.and_true]
    simp [List.all_eq_true]
  · rw [padZeros, decValue_replicate_zero_append, hval]

/-- Decomposition of the `_print_float` output line: an optional sign,
a nonempty integer digit string, a dot, exactly six fractional digits,
and a newline; the digits spell the rounded scaled magnitude. -/
lemma floatLine_shape (m e : Int) :
    ∃ ip fp : List Char,
      floatLine m e
        = (if m < 0 then ['-'] else []) ++ ip ++ ['.'] ++ fp ++ ['\n'] ∧
      ip ≠ [] ∧ ip.all Char.isDigit = true ∧ fp.all Char.isDigit = true ∧
      fp.length = 6 ∧
      decValue ip = (floatScaled6 m e).toNat / 10 ^ 6 ∧
      decValue fp = (floatScaled6 m e).toNat % 10 ^ 6 := by
  refine ⟨natDec ((floatScaled6 m e).toNat / 10 ^ 6),
    padZeros 6 (natDec ((floatScaled6 m e).toNat % 10 ^ 6)), ?_, ?_, ?_, ?_, ?_, ?_, ?_⟩
  · simp [floatLine, List.append_assoc]
  · exact (natDec_spec _).1
  · exact (natDec_spec _).2.1
  · exact (padZeros_spec _ (Nat.mod_lt _ (by norm_num))).2.1
  · exact (padZeros_spec _ (Nat.mod_lt _ (by norm_num))).1
  · exact (natDec_spec _).2.2.2
  · exact (padZeros_spec _ (Nat.mod_lt _ (by norm_num))).2.2

lemma newline_not_mem_natDec (n : Nat) : '\n' ∉ natDec n := by
  intro hmem
  have := (List.all_eq_true.mp (natDec_spec n).2.1) '\n' hmem
  simp [Char.isDigit] at this

lemma line_count_newline (c : PrintCall) : c.line.count '\n' = 1 := by
  cases c with
  | int val =>
    simp only [PrintCall.line, intLine, intDec]
    by_cases hneg : val < 0
    · simp [hneg, List.count_append, List.count_cons,
        List.count_eq_zero.mpr (newline_not_mem_natDec val.natAbs)]
    · simp [hneg, List.count_append,
        List.count_eq_zero.mpr (newline_not_mem_natDec val.natAbs)]
  | float m e =>
    simp only [PrintCall.line, floatLine]
    have h1 := List.count_eq_zero.mpr
      (newline_not_mem_natDec ((floatScaled6 m e).toNat / 10 ^ 6))
    have h2 : (padZeros 6 (natDec ((floatScaled6 m e).toNat % 10 ^ 6))).count '\n'
        = 0 := by
      apply List.count_eq_zero.mpr
      intro hmem
      rcases List.mem_append.mp hmem with h | h
      · have := List.eq_of_mem_replicate h
        simp at this
      · exact newline_not_mem_natDec _ h
    norm_num at h1 h2
    by_cases hneg : m < 0
    · simp [hneg, List.count_append, h1, h2]
    · simp [hneg, List.count_append, h1, h2]

/-- C1: for every representable signed integer `n` (a 32-bit `int`),
`_print_int n` appends to standard output exactly the decimal string
representation of `n` followed by a single newline, and nothing else. -/
theorem print_int_correct (n : Int) (h1 : -(2 ^ 31) ≤ n) (h2 : n < 2 ^ 31)
    (stdout : List Char) :
    _print_int n stdout = stdout ++ intDec n ++ ['\n'] ∧
      isIntDecRep n (intDec n) = true :=
  ⟨by simp [_print_int, intLine], isIntDecRep_intDec n⟩

/-- Witness for C1 at the concrete input `n = -42`. -/
theorem print_int_correct_witness :
    (-(2 ^ 31) : Int) ≤ -42 ∧ (-42 : Int) < 2 ^ 31 ∧
      (_print_int (-42) [] = [] ++ intDec (-42) ++ ['\n'] ∧
        isIntDecRep (-42) (intDec (-42)) = true) :=
  ⟨by decide, by decide, print_int_correct (-42) (by decide) (by decide) []⟩

/-- C2: for every finite double value `m * 2 ^ e`, `_print_float`
appends a fixed-point decimal rendering — an optional sign, integer
digits, a dot, exactly six fractional digits (so no scientific
notation) — followed by a single newline; the digits spell the value
rounded to six decimal places. -/
theorem print_float_correct (m e : Int) (stdout : List Char) :
    ∃ ip fp : List Char,
      _print_float m e stdout
        = stdout ++ (if m < 0 then ['-'] else []) ++ ip ++ ['.'] ++ fp ++ ['\n'] ∧
      ip ≠ [] ∧ ip.all Char.isDigit = true ∧ fp.all Char.isDigit = true ∧
      fp.length = 6 ∧
      decValue ip = (floatScaled6 m e).toNat / 10 ^ 6 ∧
      decValue fp = (floatScaled6 m e).toNat % 10 ^ 6 := by
  obtain ⟨ip, fp, hline, hne, hip, hfp, hlen, hvi, hvf⟩ := floatLine_shape m e
  exact ⟨ip, fp, by rw [_print_float, hline]; simp [List.append_assoc],
    hne, hip, hfp, hlen, hvi, hvf⟩

/-- C3: `_print_int 0` produces exactly the line `"0\n"`, and
`_print_float` on the double value `1.5` (mantissa 3, exponent -1)
produces a line beginning with the characters `"1.500000"`. -/
theorem print_concrete_examples :
    _print_int 0 [] = ['0', '\n'] ∧
      ∃ rest : List Char,
        _print_float 3 (-1) []
          = ['1', '.', '5', '0', '0', '0', '0', '0'] ++ rest :=
  ⟨by decide, ['\n'], by decide⟩

/-- C4: two consecutive print calls, in either order and with any
arguments, append their two lines in call order — the final stream is
the old stream followed by the first call's line and then the second
call's line, and each line contains exactly one newline. -/
theorem consecutive_calls_ordered (c1 c2 : PrintCall) (stdout : List Char) :
    runCall c2 (runCall c1 stdout) = stdout ++ c1.line ++ c2.line ∧
      c1.line.count '\n' = 1 ∧ c2.line.count '\n' = 1 := by
  refine ⟨?_, line_count_newline c1, line_count_newline c2⟩
  cases c1 <;> cases c2 <;>
    simp [runCall, _print_int, _print_float, PrintCall.line, List.append_assoc]

/-- C5: `_print_float` is deterministic: for each double value
`m * 2 ^ e` there is a single line `L` appended by every invocation,
and `L` always carries exactly six digits after the decimal point. -/
theorem print_float_deterministic (m e : Int) :
    ∃ L : List Char,
      (∀ stdout : List Char, _print_float m e stdout = stdout ++ L) ∧
      ∃ ip fp : List Char,
        L = (if m < 0 then ['-'] else []) ++ ip ++ ['.'] ++ fp ++ ['\n'] ∧
          fp.length = 6 := by
  obtain ⟨ip, fp, hline, -, -, -, hlen, -, -⟩ := floatLine_shape m e
  exact ⟨floatLine m e, fun stdout => rfl, ip, fp, hline, hlen⟩

/-- C6: neither print helper surfaces an error: for every input the
caller-visible result is the C `void` return (modelled as `Unit`), and
it is identical whether or not the underlying output stream fails. -/
theorem print_no_error (c : PrintCall) (stdout : List Char)
    (ok1 ok2 : Bool) :
    (runCallChecked ok1 c stdout).2 = () ∧
      (runCallChecked ok1 c stdout).2 = (runCallChecked ok2 c stdout).2 :=
  ⟨rfl, rfl⟩

/-- C7: a print call leaves every piece of program state other than the
standard-output stream unchanged, and its only effect on the stream is
appending the one formatted line. -/
theorem print_frame {σ : Type} (c : PrintCall) (st : ProcState σ) :
    (runCallOn c st).rest = st.rest ∧
      (runCallOn c st).stdout = st.stdout ++ c.line := by
  cases c <;>
    simp [runCallOn, runCall, _print_int, _print_float, PrintCall.line]

/-- C8: `isprime 15 = false` and `isprime 37 = true`, so the first two
print statements of `main` in `prog3.wb` output the lines `0` and then
`1`, as the script's comments state. -/
theorem prog3_first_two_prints :
    isprime 15 = false ∧ isprime 37 = true ∧
      mainFirstTwo = ['0', '\n', '1', '\n'] :=
  ⟨by decide, by decide, by decide⟩

/-- C9: for every integer `n < 4` — including `0`, `1` and every
negative `n` — `isprime n = true`, because the loop guard
`factor <= n / 2` is already false on entry with `factor = 2`. -/
theorem isprime_small (n : Int) (h : n < 4) : isprime n = true := by
  have hc : ¬ ((2 : Int) ≤ n / 2) := by omega
  simp [isprime, isprimeFuel, hc]

/-- Witness for C9 at the concrete input `n = -7`. -/
theorem isprime_small_witness : (-7 : Int) < 4 ∧ isprime (-7) = true :=
  ⟨by decide, isprime_small (-7) (by decide)⟩

/-- C10: the while loop of `isprime` terminates for every integer
input: some finite fuel suffices for the loop started at `factor = 2`
to return a result, and that result is the value of the total function
`isprime`. -/
theorem isprime_terminates (n : Int) :
    ∃ fuel : Nat, isprimeFuel fuel n 2 = some (isprime n) := by
  refine ⟨isprimeMeasure n 2 + 1, ?_⟩
  have h := isprimeFuel_isSome (isprimeMeasure n 2 + 1) n 2
    (Nat.lt_succ_self _)
  unfold isprime
  cases hx : isprimeFuel (isprimeMeasure n 2 + 1) n 2 with
  | none => rw [hx] at h; simp at h
  | some b => simp [hx]
